import Mathlib

/-!
Verification of the Wagner-Whitin dynamic lot-sizing solver
(`WagnerWhitin` class: `compute_optimal_schedule` and
`get_production_schedule`).

The solver is embedded shallowly: numeric values (demand entries, setup
cost, holding cost rate) are rationals, the `Z` array and the `j` array
are lists grown left-to-right exactly as the source writes them, the
N x N cost table is a function `Nat -> Nat -> Option Rat` whose `none`
entries model the `np.inf` sentinel, and the schedule reconstruction
walk is modelled with explicit fuel together with Python's list-index
semantics (negative indices wrap, out-of-range assignment is an
IndexError, slices clamp).
-/

namespace WagnerWhitin

/-- Python `l[i]` for integer `i`: negative indices count from the end,
out-of-range access is an IndexError (`none`). -/
def pyGet {α : Type} (l : List α) (i : ℤ) : Option α :=
  if 0 ≤ i then l[i.toNat]?
  else if 0 ≤ i + l.length then l[(i + l.length).toNat]? else none

/-- Python `l[i] = v` for integer `i`: negative indices count from the
end, out-of-range assignment is an IndexError (`none`). -/
def pySet {α : Type} (l : List α) (i : ℤ) (v : α) : Option (List α) :=
  if 0 ≤ i then
    if i < l.length then some (l.set i.toNat v) else none
  else if 0 ≤ i + l.length then some (l.set (i + l.length).toNat v) else none

/-- Python slice `l[a:b]`: negative bounds count from the end, then both
bounds are clamped into `[0, len]`. -/
def pySlice {α : Type} (l : List α) (a b : ℤ) : List α :=
  let n : ℤ := l.length
  let a' := if a < 0 then max (a + n) 0 else min a n
  let b' := if b < 0 then max (b + n) 0 else min b n
  (l.drop a'.toNat).take (b' - a').toNat

/-- Line 24's `sum((i - k) * demand[i - 1] for i in range(k, t + 1))`: the holding units carried when one production at period
`k` covers periods `k..t` (1-indexed periods, `demand` 0-indexed). -/
def holding_units (demand : List ℚ) (k t : ℕ) : ℚ :=
  ((List.range' k (t + 1 - k)).map fun i => ((i - k : ℕ) : ℚ) * demand.getD (i - 1) 0).sum

/-- The cost expression of line 24,
`Z[k-1] + setup_cost + holding_cost * Σ (i-k)*demand[i-1]`, evaluated against the `Z` list
current at that point of the loop. -/
def cost (Z : List ℚ) (setup_cost holding_cost : ℚ) (demand : List ℚ) (k t : ℕ) : ℚ :=
  Z.getD (k - 1) 0 + setup_cost + holding_cost * holding_units demand k t

/-- One iteration of the inner `for k in range(1, t + 1)` loop of
`compute_optimal_schedule` (lines 22-28): store `cost(k, t)` in the
table, and update `(min_cost, j[t])` when the new cost is strictly
smaller (`cost < min_cost`); `min_cost = none` models the initial
`float('inf')`. -/
def innerStep (Z : List ℚ) (S H : ℚ) (d : List ℚ) (t : ℕ)
    (st : Option ℚ × ℕ × (ℕ → ℕ → Option ℚ)) (k : ℕ) :
    Option ℚ × ℕ × (ℕ → ℕ → Option ℚ) :=
  let c := cost Z S H d k t
  let tbl := fun k' t' => if k' = k ∧ t' = t then some c else st.2.2 k' t'
  match st.1 with
  | none => (some c, k, tbl)
  | some m => if c < m then (some c, k, tbl) else (some m, st.2.1, tbl)

/-- The outer `for t in range(1, N + 1)` loop of
`compute_optimal_schedule` run for its first `t` iterations, starting
from `Z = [0]`, `j = [0]`, and the all-`inf` table: each iteration runs
the inner loop over `k in 1..t` and records `Z[t]` and `j[t]`. -/
def wwLoop (S H : ℚ) (d : List ℚ) : ℕ → List ℚ × List ℕ × (ℕ → ℕ → Option ℚ)
  | 0 => ([0], [0], fun _ _ => none)
  | t + 1 =>
    let s := wwLoop S H d t
    let r := (List.range' 1 (t + 1)).foldl (innerStep s.1 S H d (t + 1)) (none, 0, s.2.2)
    (s.1 ++ [r.1.getD 0], s.2.1 ++ [r.2.1], r.2.2)

/-- Lines 16-29, `compute_optimal_schedule`: run the outer loop over
all `N = len(demand)` periods, producing the final `Z`, `j` and cost
table. -/
def compute_optimal_schedule (demand : List ℚ) (setup_cost holding_cost : ℚ) :
    List ℚ × List ℕ × (ℕ → ℕ → Option ℚ) :=
  wwLoop setup_cost holding_cost demand demand.length

/-- The final `Z` array (minimum costs), `Z[0..N]`. -/
def Zarr (demand : List ℚ) (setup_cost holding_cost : ℚ) : List ℚ :=
  (compute_optimal_schedule demand setup_cost holding_cost).1

/-- The final `j` array (last production periods), `j[0..N]`. -/
def jarr (demand : List ℚ) (setup_cost holding_cost : ℚ) : List ℕ :=
  (compute_optimal_schedule demand setup_cost holding_cost).2.1

/-- The final cost table; `tableEntry d S H k t` is the entry the
source stores at `table[k - 1, t - 1]`, `none` being the `np.inf`
sentinel. -/
def tableEntry (demand : List ℚ) (setup_cost holding_cost : ℚ) : ℕ → ℕ → Option ℚ :=
  (compute_optimal_schedule demand setup_cost holding_cost).2.2

/-- The `while t > 0` walk of `get_production_schedule` (lines 37-40)
with explicit fuel bounding the number of body executions: read
`k = j[t]`, assign `schedule[k-1] = sum(demand[k-1:t])`, move to
`t = k - 1`.  `none` means an IndexError or fuel exhaustion. -/
def gpsLoop (demand : List ℚ) (j : List ℤ) : ℕ → ℤ → List ℚ → Option (List ℚ)
  | 0, t, schedule => if 0 < t then none else some schedule
  | fuel + 1, t, schedule =>
    if 0 < t then
      match pyGet j t with
      | none => none
      | some k =>
        match pySet schedule (k - 1) (pySlice demand (k - 1) t).sum with
        | none => none
        | some schedule2 => gpsLoop demand j fuel (k - 1) schedule2
    else some schedule

/-- Lines 31-41, `get_production_schedule`: start from the all-zero
schedule at `t = N` and walk the `j` pointers backward; the fuel `N`
suffices whenever each step strictly decreases `t`. -/
def get_production_schedule (demand : List ℚ) (j : List ℤ) : Option (List ℚ) :=
  gpsLoop demand j demand.length demand.length (List.replicate demand.length 0)

/-- The full pipeline as invoked by `main` (lines 96-105): build the
table, then reconstruct the schedule from the computed `j`. -/
def solve (demand : List ℚ) (setup_cost holding_cost : ℚ) :
    List ℚ × List ℕ × Option (List ℚ) :=
  let r := compute_optimal_schedule demand setup_cost holding_cost
  (r.1, r.2.1, get_production_schedule demand (r.2.1.map Int.ofNat))

/-- Proof device: the `(min_cost, j[t])` part of one inner-loop
iteration, without the table. -/
def minSel (c : ℕ → ℚ) (p : ℚ × ℕ) (k : ℕ) : ℚ × ℕ :=
  if c k < p.1 then (c k, k) else p

/-- The production intervals `[(j[t], t), ...]` visited by the
reconstruction walk of `get_production_schedule`, newest first. -/
def wwIntervals (j : ℕ → ℕ) : ℕ → ℕ → List (ℕ × ℕ)
  | 0, _ => []
  | fuel + 1, t => if t = 0 then [] else (j t, t) :: wwIntervals j fuel (j t - 1)

/-- Entry `t` of the final minimum-cost array, `Z[t]`. -/
def Zv (demand : List ℚ) (setup_cost holding_cost : ℚ) (t : ℕ) : ℚ :=
  (Zarr demand setup_cost holding_cost).getD t 0

/-- Entry `t` of the final last-production-period array, `j[t]`. -/
def jv (demand : List ℚ) (setup_cost holding_cost : ℚ) (t : ℕ) : ℕ :=
  (jarr demand setup_cost holding_cost).getD t 0

/-- Proof device: the `(min_cost, j)` state after the whole inner loop of
outer iteration `t + 1`, seeded by its first iteration `k = 1` (which
always replaces the initial infinite `min_cost`). -/
def innerMin (S H : ℚ) (d : List ℚ) (t : ℕ) : ℚ × ℕ :=
  List.foldl (minSel fun k => cost (wwLoop S H d t).1 S H d k (t + 1))
    (cost (wwLoop S H d t).1 S H d 1 (t + 1), 1) (List.range' 2 t)

/-! ### Properties of the inner minimum-selection fold -/

lemma minFold_congr (c c' : ℕ → ℚ) :
    ∀ (ks : List ℕ) (p : ℚ × ℕ), (∀ k ∈ ks, c k = c' k) →
      List.foldl (minSel c) p ks = List.foldl (minSel c') p ks := by
  intro ks
  induction ks with
  | nil => intro p _; rfl
  | cons k ks ih =>
    intro p h
    simp only [List.foldl_cons]
    rw [show minSel c p k = minSel c' p k by simp [minSel, h k (by simp)]]
    exact ih _ (fun k' hk' => h k' (by simp [hk']))

lemma minFold_fst_le (c : ℕ → ℚ) :
    ∀ (ks : List ℕ) (p : ℚ × ℕ), (List.foldl (minSel c) p ks).1 ≤ p.1 := by
  intro ks
  induction ks with
  | nil => intro p; exact le_refl _
  | cons k ks ih =>
    intro p
    simp only [List.foldl_cons]
    refine le_trans (ih _) ?_
    by_cases h : c k < p.1
    · simp only [minSel, if_pos h]
      exact le_of_lt h
    · simp [minSel, h]

lemma minFold_le_of_mem (c : ℕ → ℚ) :
    ∀ (ks : List ℕ) (p : ℚ × ℕ) (k : ℕ), k ∈ ks →
      (List.foldl (minSel c) p ks).1 ≤ c k := by
  intro ks
  induction ks with
  | nil => intro p k h; cases h
  | cons a ks ih =>
    intro p k hk
    simp only [List.foldl_cons]
    rcases List.mem_cons.mp hk with h | h
    · subst h
      refine le_trans (minFold_fst_le c ks _) ?_
      by_cases h : c k < p.1
      · simp [minSel, h]
      · simp only [minSel, if_neg h]
        exact le_of_not_lt h
    · exact ih _ k h

lemma minFold_attain (c : ℕ → ℚ) :
    ∀ (ks : List ℕ) (p : ℚ × ℕ),
      List.foldl (minSel c) p ks = p ∨
        ((List.foldl (minSel c) p ks).1 = c (List.foldl (minSel c) p ks).2 ∧
          (List.foldl (minSel c) p ks).2 ∈ ks) := by
  intro ks
  induction ks with
  | nil => intro p; left; rfl
  | cons k ks ih =>
    intro p
    simp only [List.foldl_cons]
    by_cases h : c k < p.1
    · rw [show minSel c p k = (c k, k) by simp [minSel, h]]
      rcases ih (c k, k) with h2 | h2
      · right; rw [h2]; simp
      · right; exact ⟨h2.1, List.mem_cons_of_mem _ h2.2⟩
    · rw [show minSel c p k = p by simp [minSel, h]]
      rcases ih p with h2 | h2
      · left; exact h2
      · right; exact ⟨h2.1, List.mem_cons_of_mem _ h2.2⟩

lemma minFold_strict (c : ℕ → ℚ) :
    ∀ (ks : List ℕ) (p : ℚ × ℕ),
      (List.foldl (minSel c) p ks).2 ≠ p.2 → (List.foldl (minSel c) p ks).1 < p.1 := by
  intro ks
  induction ks with
  | nil => intro p h; exact absurd rfl h
  | cons k ks ih =>
    intro p h
    simp only [List.foldl_cons] at h ⊢
    by_cases hc : c k < p.1
    · rw [show minSel c p k = (c k, k) by simp [minSel, hc]]
      exact lt_of_le_of_lt (minFold_fst_le c ks _) hc
    · rw [show minSel c p k = p by simp [minSel, hc]] at h ⊢
      exact ih p h

lemma minFold_first (c : ℕ → ℚ) :
    ∀ (ks : List ℕ) (p : ℚ × ℕ), (∀ k ∈ ks, p.2 < k) →
      List.Pairwise (· < ·) ks → ∀ k ∈ ks, c k = (List.foldl (minSel c) p ks).1 →
      (List.foldl (minSel c) p ks).2 ≤ k := by
  intro ks
  induction ks with
  | nil => intro p _ _ k hk; cases hk
  | cons a ks ih =>
    intro p hp hpw k hk hck
    have hpw' := List.pairwise_cons.mp hpw
    simp only [List.foldl_cons] at hck ⊢
    by_cases hc : c a < p.1
    · rw [show minSel c p a = (c a, a) by simp [minSel, hc]] at hck ⊢
      rcases List.mem_cons.mp hk with h | h
      · subst h
        by_cases hj : (List.foldl (minSel c) (c k, k) ks).2 = k
        · rw [hj]
        · exact absurd hck (ne_of_gt (minFold_strict c ks (c k, k) hj))
      · exact ih (c a, a) hpw'.1 hpw'.2 k h hck
    · rw [show minSel c p a = p by simp [minSel, hc]] at hck ⊢
      rcases List.mem_cons.mp hk with h | h
      · subst h
        by_cases hj : (List.foldl (minSel c) p ks).2 = p.2
        · rw [hj]; exact le_of_lt (hp k (by simp))
        · have h1 := minFold_strict c ks p hj
          have h2 : p.1 ≤ c k := le_of_not_lt hc
          exact absurd hck (ne_of_gt (lt_of_lt_of_le h1 h2))
      · exact ih p (fun k' hk' => hp k' (by simp [hk'])) hpw'.2 k h hck

lemma minFold_fix (c : ℕ → ℚ) :
    ∀ (ks : List ℕ) (p : ℚ × ℕ), (∀ k ∈ ks, ¬ c k < p.1) →
      List.foldl (minSel c) p ks = p := by
  intro ks
  induction ks with
  | nil => intro p _; rfl
  | cons k ks ih =>
    intro p h
    simp only [List.foldl_cons]
    rw [show minSel c p k = p by simp [minSel, h k (by simp)]]
    exact ih p (fun k' hk' => h k' (by simp [hk']))

/-! ### Decomposing the loops of `compute_optimal_schedule` -/

lemma innerFold_eq (Z : List ℚ) (S H : ℚ) (d : List ℚ) (t : ℕ) :
    ∀ (ks : List ℕ) (m : ℚ) (j : ℕ) (tb : ℕ → ℕ → Option ℚ),
      List.foldl (innerStep Z S H d t) (some m, j, tb) ks =
        (some (List.foldl (minSel fun k => cost Z S H d k t) (m, j) ks).1,
         (List.foldl (minSel fun k => cost Z S H d k t) (m, j) ks).2,
         fun k' t' => if k' ∈ ks ∧ t' = t then some (cost Z S H d k' t') else tb k' t') := by
  intro ks
  induction ks with
  | nil =>
    intro m j tb
    simp only [List.foldl_nil]
    refine congrArg (fun f => ((some m : Option ℚ), j, f)) ?_
    funext k' t'
    simp
  | cons a ks ih =>
    intro m j tb
    simp only [List.foldl_cons]
    by_cases hc : cost Z S H d a t < m
    · rw [show innerStep Z S H d t (some m, j, tb) a =
          (some (cost Z S H d a t), a,
           fun k' t' => if k' = a ∧ t' = t then some (cost Z S H d a t) else tb k' t') by
        simp [innerStep, hc]]
      rw [ih]
      rw [show minSel (fun k => cost Z S H d k t) (m, j) a = (cost Z S H d a t, a) by
        simp [minSel, hc]]
      congr 1
      congr 1
      funext k' t'
      by_cases ht' : t' = t
      · subst ht'
        by_cases hk : k' ∈ ks
        · simp [hk]
        · by_cases hk2 : k' = a
          · subst hk2; simp [hk]
          · simp [hk, hk2]
      · simp [ht']
    · rw [show innerStep Z S H d t (some m, j, tb) a =
          (some m, j,
           fun k' t' => if k' = a ∧ t' = t then some (cost Z S H d a t) else tb k' t') by
        simp [innerStep, hc]]
      rw [ih]
      rw [show minSel (fun k => cost Z S H d k t) (m, j) a = (m, j) by
        simp [minSel, hc]]
      congr 1
      congr 1
      funext k' t'
      by_cases ht' : t' = t
      · subst ht'
        by_cases hk : k' ∈ ks
        · simp [hk]
        · by_cases hk2 : k' = a
          · subst hk2; simp [hk]
          · simp [hk, hk2]
      · simp [ht']

lemma wwLoop_succ_eq (S H : ℚ) (d : List ℚ) (t : ℕ) :
    wwLoop S H d (t + 1) =
      ((wwLoop S H d t).1 ++ [(innerMin S H d t).1],
       (wwLoop S H d t).2.1 ++ [(innerMin S H d t).2],
       fun k' t' => if k' ∈ List.range' 1 (t + 1) ∧ t' = t + 1
         then some (cost (wwLoop S H d t).1 S H d k' (t + 1))
         else (wwLoop S H d t).2.2 k' t') := by
  have hr : List.range' 1 (t + 1) = 1 :: List.range' 2 t := List.range'_succ 1 t 1
  conv_lhs => rw [wwLoop]
  rw [hr, List.foldl_cons]
  rw [show innerStep (wwLoop S H d t).1 S H d (t + 1)
        (none, 0, (wwLoop S H d t).2.2) 1 =
      (some (cost (wwLoop S H d t).1 S H d 1 (t + 1)), 1,
       fun k' t' => if k' = 1 ∧ t' = t + 1
         then some (cost (wwLoop S H d t).1 S H d 1 (t + 1))
         else (wwLoop S H d t).2.2 k' t') from by simp [innerStep]]
  rw [innerFold_eq]
  rw [show (List.foldl (minSel fun k => cost (wwLoop S H d t).1 S H d k (t + 1))
        (cost (wwLoop S H d t).1 S H d 1 (t + 1), 1) (List.range' 2 t)) = innerMin S H d t
      from rfl]
  congr 1
  congr 1
  funext k' t'
  by_cases ht' : t' = t + 1
  · subst ht'
    by_cases hk : k' ∈ List.range' 2 t
    · simp [hk]
    · by_cases hk2 : k' = 1
      · subst hk2; simp [hk]
      · simp [hk, hk2]
  · simp [ht']

lemma wwZ_length (S H : ℚ) (d : List ℚ) : ∀ t, ((wwLoop S H d t).1).length = t + 1 := by
  intro t
  induction t with
  | zero => rfl
  | succ t ih => rw [wwLoop_succ_eq]; simp [ih]

lemma wwJ_length (S H : ℚ) (d : List ℚ) : ∀ t, ((wwLoop S H d t).2.1).length = t + 1 := by
  intro t
  induction t with
  | zero => rfl
  | succ t ih => rw [wwLoop_succ_eq]; simp [ih]

lemma wwZ_stable (S H : ℚ) (d : List ℚ) :
    ∀ u t i, t ≤ u → i ≤ t →
      ((wwLoop S H d u).1).getD i 0 = ((wwLoop S H d t).1).getD i 0 := by
  intro u
  induction u with
  | zero => intro t i htu _; interval_cases t; rfl
  | succ u ih =>
    intro t i htu hit
    by_cases h : t = u + 1
    · subst h; rfl
    · have htu' : t ≤ u := by omega
      rw [wwLoop_succ_eq]
      have hlen : i < ((wwLoop S H d u).1).length := by rw [wwZ_length]; omega
      simp only []
      rw [List.getD_append _ _ _ _ hlen]
      exact ih t i htu' hit

lemma wwJ_stable (S H : ℚ) (d : List ℚ) :
    ∀ u t i, t ≤ u → i ≤ t →
      ((wwLoop S H d u).2.1).getD i 0 = ((wwLoop S H d t).2.1).getD i 0 := by
  intro u
  induction u with
  | zero => intro t i htu _; interval_cases t; rfl
  | succ u ih =>
    intro t i htu hit
    by_cases h : t = u + 1
    · subst h; rfl
    · have htu' : t ≤ u := by omega
      rw [wwLoop_succ_eq]
      have hlen : i < ((wwLoop S H d u).2.1).length := by rw [wwJ_length]; omega
      simp only []
      rw [List.getD_append _ _ _ _ hlen]
      exact ih t i htu' hit

lemma Zarr_length (d : List ℚ) (S H : ℚ) : (Zarr d S H).length = d.length + 1 :=
  wwZ_length S H d d.length

lemma jarr_length (d : List ℚ) (S H : ℚ) : (jarr d S H).length = d.length + 1 :=
  wwJ_length S H d d.length

lemma Zv_zero (d : List ℚ) (S H : ℚ) : Zv d S H 0 = 0 := by
  show ((wwLoop S H d d.length).1).getD 0 0 = 0
  rw [wwZ_stable S H d d.length 0 0 (Nat.zero_le _) (le_refl _)]
  rfl

lemma Zv_succ (d : List ℚ) (S H : ℚ) (t : ℕ) (ht : t + 1 ≤ d.length) :
    Zv d S H (t + 1) = (innerMin S H d t).1 := by
  show ((wwLoop S H d d.length).1).getD (t + 1) 0 = _
  rw [wwZ_stable S H d d.length (t + 1) (t + 1) ht (le_refl _)]
  rw [wwLoop_succ_eq]
  simp only []
  rw [List.getD_append_right _ _ _ _ (by rw [wwZ_length])]
  rw [wwZ_length]
  simp

lemma jv_succ (d : List ℚ) (S H : ℚ) (t : ℕ) (ht : t + 1 ≤ d.length) :
    jv d S H (t + 1) = (innerMin S H d t).2 := by
  show ((wwLoop S H d d.length).2.1).getD (t + 1) 0 = _
  rw [wwJ_stable S H d d.length (t + 1) (t + 1) ht (le_refl _)]
  rw [wwLoop_succ_eq]
  simp only []
  rw [List.getD_append_right _ _ _ _ (by rw [wwJ_length])]
  rw [wwJ_length]
  simp

lemma cost_congr {Z Z' : List ℚ} (S H : ℚ) (d : List ℚ) (k t : ℕ)
    (h : Z.getD (k - 1) 0 = Z'.getD (k - 1) 0) :
    cost Z S H d k t = cost Z' S H d k t := by
  unfold cost
  rw [h]

lemma innerMin_eq_final (S H : ℚ) (d : List ℚ) (t : ℕ) (ht : t + 1 ≤ d.length) :
    innerMin S H d t =
      List.foldl (minSel fun k => cost (Zarr d S H) S H d k (t + 1))
        (cost (Zarr d S H) S H d 1 (t + 1), 1) (List.range' 2 t) := by
  unfold innerMin
  have hZ : ∀ k, k ≤ t + 1 →
      cost (wwLoop S H d t).1 S H d k (t + 1) = cost (Zarr d S H) S H d k (t + 1) := by
    intro k hk
    refine cost_congr S H d k (t + 1) ?_
    exact (wwZ_stable S H d d.length t (k - 1) (by omega) (by omega)).symm
  rw [hZ 1 (by omega)]
  refine minFold_congr _ _ _ _ ?_
  intro k hk
  have := List.mem_range'_1.mp hk
  exact hZ k (by omega)

/-! ### Characterization of `Z`, `j` and the cost table -/

lemma Zv_le_cost (d : List ℚ) (S H : ℚ) (t k : ℕ)
    (hk1 : 1 ≤ k) (hkt : k ≤ t) (ht : t ≤ d.length) :
    Zv d S H t ≤ cost (Zarr d S H) S H d k t := by
  obtain ⟨t, rfl⟩ : ∃ t', t = t' + 1 := ⟨t - 1, by omega⟩
  rw [Zv_succ d S H t ht, innerMin_eq_final S H d t ht]
  by_cases h1 : k = 1
  · subst h1
    exact minFold_fst_le _ _ _
  · refine minFold_le_of_mem _ _ _ k ?_
    exact List.mem_range'_1.mpr ⟨by omega, by omega⟩

lemma Zv_attain (d : List ℚ) (S H : ℚ) (t : ℕ) (ht1 : 1 ≤ t) (ht : t ≤ d.length) :
    Zv d S H t = cost (Zarr d S H) S H d (jv d S H t) t ∧
      1 ≤ jv d S H t ∧ jv d S H t ≤ t := by
  obtain ⟨t, rfl⟩ : ∃ t', t = t' + 1 := ⟨t - 1, by omega⟩
  rw [Zv_succ d S H t ht, jv_succ d S H t ht, innerMin_eq_final S H d t ht]
  rcases minFold_attain (fun k => cost (Zarr d S H) S H d k (t + 1)) (List.range' 2 t)
      (cost (Zarr d S H) S H d 1 (t + 1), 1) with h | h
  · rw [h]
    exact ⟨rfl, le_refl _, by omega⟩
  · have hmem := List.mem_range'_1.mp h.2
    exact ⟨h.1, by omega, by omega⟩

lemma jv_first (d : List ℚ) (S H : ℚ) (t k : ℕ)
    (ht1 : 1 ≤ t) (ht : t ≤ d.length) (hk1 : 1 ≤ k) (hkt : k ≤ t)
    (hc : cost (Zarr d S H) S H d k t = Zv d S H t) :
    jv d S H t ≤ k := by
  obtain ⟨t, rfl⟩ : ∃ t', t = t' + 1 := ⟨t - 1, by omega⟩
  rw [Zv_succ d S H t ht, innerMin_eq_final S H d t ht] at hc
  rw [jv_succ d S H t ht, innerMin_eq_final S H d t ht]
  by_cases h1 : k = 1
  · subst h1
    by_cases hj : (List.foldl (minSel fun k => cost (Zarr d S H) S H d k (t + 1))
        (cost (Zarr d S H) S H d 1 (t + 1), 1) (List.range' 2 t)).2 = 1
    · rw [hj]
    · have hlt : (List.foldl (minSel fun k => cost (Zarr d S H) S H d k (t + 1))
          (cost (Zarr d S H) S H d 1 (t + 1), 1) (List.range' 2 t)).1 <
            cost (Zarr d S H) S H d 1 (t + 1) :=
        minFold_strict _ (List.range' 2 t) _ hj
      exact absurd (hlt.trans_le (le_of_eq hc)) (lt_irrefl _)
  · refine minFold_first _ (List.range' 2 t) _ ?_ ?_ k ?_ hc
    · intro k' hk'
      have := List.mem_range'_1.mp hk'
      show 1 < k'
      omega
    · exact List.pairwise_lt_range' 2 t
    · exact List.mem_range'_1.mpr ⟨by omega, by omega⟩

lemma table_filled_loop (d : List ℚ) (S H : ℚ) :
    ∀ u k p, 1 ≤ k → k ≤ p → p ≤ u → u ≤ d.length →
      (wwLoop S H d u).2.2 k p = some (cost (Zarr d S H) S H d k p) := by
  intro u
  induction u with
  | zero => intro k p h1 h2 h3 _; omega
  | succ u ih =>
    intro k p h1 h2 h3 h4
    rw [wwLoop_succ_eq]
    simp only []
    by_cases hp : p = u + 1
    · subst hp
      rw [if_pos ⟨List.mem_range'_1.mpr ⟨h1, by omega⟩, rfl⟩]
      refine congrArg some (cost_congr S H d k (u + 1) ?_)
      exact (wwZ_stable S H d d.length u (k - 1) (by omega) (by omega)).symm
    · rw [if_neg (by simp [hp])]
      exact ih k p h1 h2 (by omega) (by omega)

lemma table_filled (d : List ℚ) (S H : ℚ) (k p : ℕ)
    (h1 : 1 ≤ k) (h2 : k ≤ p) (h3 : p ≤ d.length) :
    tableEntry d S H k p = some (cost (Zarr d S H) S H d k p) :=
  table_filled_loop d S H d.length k p h1 h2 h3 (le_refl _)

/-! ### Arithmetic facts about costs -/

lemma getD_nonneg (l : List ℚ) (h : ∀ x ∈ l, 0 ≤ x) (n : ℕ) : 0 ≤ l.getD n 0 := by
  rw [List.getD_eq_getElem?_getD]
  cases hel : l[n]? with
  | none => simp
  | some a => simpa using h a (List.getElem?_mem hel)

lemma holding_units_nonneg (d : List ℚ) (hd : ∀ x ∈ d, 0 ≤ x) (k t : ℕ) :
    0 ≤ holding_units d k t := by
  refine List.sum_nonneg ?_
  intro x hx
  simp only [List.mem_map] at hx
  obtain ⟨i, _, rfl⟩ := hx
  exact mul_nonneg (Nat.cast_nonneg _) (getD_nonneg d hd _)

lemma holding_units_succ (d : List ℚ) (k t : ℕ) (hk : k ≤ t + 1) :
    holding_units d k (t + 1) =
      holding_units d k t + ((t + 1 - k : ℕ) : ℚ) * d.getD t 0 := by
  unfold holding_units
  have h1 : t + 1 + 1 - k = (t + 1 - k) + 1 := by omega
  have h2 : k + 1 * (t + 1 - k) = t + 1 := by omega
  rw [h1, List.range'_concat, h2]
  simp

lemma holding_units_self (d : List ℚ) (k : ℕ) : holding_units d k k = 0 := by
  unfold holding_units
  have h1 : k + 1 - k = 1 := by omega
  rw [h1]
  simp

/-- The `cost` expression against the final `Z` array, through the accessor `Zv`. -/
lemma cost_final_eq (d : List ℚ) (S H : ℚ) (k t : ℕ) :
    cost (Zarr d S H) S H d k t = Zv d S H (k - 1) + S + H * holding_units d k t := rfl

lemma Zv_nonneg (d : List ℚ) (S H : ℚ)
    (hd : ∀ x ∈ d, 0 ≤ x) (hS : 0 ≤ S) (hH : 0 ≤ H) :
    ∀ p, p ≤ d.length → 0 ≤ Zv d S H p := by
  intro p
  induction p using Nat.strong_induction_on with
  | _ p ih =>
    intro hp
    rcases Nat.eq_zero_or_pos p with h0 | h1
    · subst h0; rw [Zv_zero]
    · obtain ⟨hat, _, hjle⟩ := Zv_attain d S H p h1 hp
      rw [hat, cost_final_eq]
      have hZ : 0 ≤ Zv d S H (jv d S H p - 1) := ih _ (by omega) (by omega)
      have hh := holding_units_nonneg d hd (jv d S H p) p
      have := mul_nonneg hH hh
      linarith

lemma Zv_mono_step (d : List ℚ) (S H : ℚ)
    (hd : ∀ x ∈ d, 0 ≤ x) (hS : 0 ≤ S) (hH : 0 ≤ H) :
    ∀ t, t < d.length → Zv d S H t ≤ Zv d S H (t + 1) := by
  intro t ht
  rcases Nat.eq_zero_or_pos t with h0 | h1
  · subst h0
    rw [Zv_zero]
    exact Zv_nonneg d S H hd hS hH 1 (by omega)
  · obtain ⟨hat, hj1, hjle⟩ := Zv_attain d S H (t + 1) (by omega) (by omega)
    set k0 := jv d S H (t + 1) with hk0
    rcases Nat.lt_or_ge k0 (t + 1) with hlt | hge
    · have hle1 : Zv d S H t ≤ cost (Zarr d S H) S H d k0 t :=
        Zv_le_cost d S H t k0 hj1 (by omega) (by omega)
      have hle2 : cost (Zarr d S H) S H d k0 t ≤ cost (Zarr d S H) S H d k0 (t + 1) := by
        rw [cost_final_eq, cost_final_eq, holding_units_succ d k0 t (by omega)]
        have h1 : (0:ℚ) ≤ ((t + 1 - k0 : ℕ) : ℚ) * d.getD t 0 :=
          mul_nonneg (Nat.cast_nonneg _) (getD_nonneg d hd _)
        have h2 := mul_nonneg hH h1
        have h3 : H * (holding_units d k0 t + ((t + 1 - k0 : ℕ) : ℚ) * d.getD t 0) =
            H * holding_units d k0 t + H * (((t + 1 - k0 : ℕ) : ℚ) * d.getD t 0) := by ring
        rw [h3]
        linarith
      rw [hat]
      exact le_trans hle1 hle2
    · have hk0e : k0 = t + 1 := by omega
      rw [hat, cost_final_eq, hk0e, holding_units_self]
      have : t + 1 - 1 = t := by omega
      rw [this]
      linarith

lemma zero_holding_rate (d : List ℚ) (S : ℚ)
    (hd : ∀ x ∈ d, 0 ≤ x) (hS : 0 ≤ S) :
    ∀ p, 1 ≤ p → p ≤ d.length → Zv d S 0 p = S ∧ jv d S 0 p = 1 := by
  intro p hp1 hp
  obtain ⟨t, rfl⟩ : ∃ t', p = t' + 1 := ⟨p - 1, by omega⟩
  have hseed : cost (Zarr d S 0) S 0 d 1 (t + 1) = S := by
    rw [cost_final_eq]
    norm_num [Zv_zero]
  have hfix : List.foldl (minSel fun k => cost (Zarr d S 0) S 0 d k (t + 1))
      (cost (Zarr d S 0) S 0 d 1 (t + 1), 1) (List.range' 2 t) =
      (cost (Zarr d S 0) S 0 d 1 (t + 1), 1) := by
    refine minFold_fix _ _ _ ?_
    intro k hk
    have hmem := List.mem_range'_1.mp hk
    show ¬ cost (Zarr d S 0) S 0 d k (t + 1) < cost (Zarr d S 0) S 0 d 1 (t + 1)
    rw [hseed, cost_final_eq]
    have hZ : 0 ≤ Zv d S 0 (k - 1) :=
      Zv_nonneg d S 0 hd hS (le_refl 0) (k - 1) (by omega)
    simp only [zero_mul, add_zero]
    exact not_lt.mpr (by linarith)
  constructor
  · rw [Zv_succ d S 0 t hp, innerMin_eq_final S 0 d t hp, hfix, hseed]
  · rw [jv_succ d S 0 t hp, innerMin_eq_final S 0 d t hp, hfix]

/-! ### The reconstruction walk -/

lemma getElem?_eq_some_getD {α : Type} (l : List α) (n : ℕ) (dv : α) (h : n < l.length) :
    l[n]? = some (l.getD n dv) := by
  rw [List.getD_eq_getElem?_getD, List.getElem?_eq_getElem h]
  rfl

lemma getD_map_int (l : List ℕ) (n : ℕ) :
    (l.map Int.ofNat).getD n 0 = ((l.getD n 0 : ℕ) : ℤ) := by
  have h2 : (l.map Int.ofNat)[n]? = (l[n]?).map Int.ofNat :=
    List.getElem?_map _ l n
  cases h : l[n]? with
  | none => rw [List.getD_eq_getElem?_getD, List.getD_eq_getElem?_getD, h, h2, h]; rfl
  | some a => rw [List.getD_eq_getElem?_getD, List.getD_eq_getElem?_getD, h, h2, h]; rfl

lemma gps_run (d : List ℚ) (j : List ℤ) (hjlen : j.length = d.length + 1)
    (hj : ∀ u, 1 ≤ u → u ≤ d.length → 1 ≤ j.getD u 0 ∧ j.getD u 0 ≤ (u : ℤ)) :
    ∀ t, t ≤ d.length → ∀ fuel, t ≤ fuel → ∀ tail : List ℚ, tail.length = d.length - t →
      ∃ r, gpsLoop d j fuel (t : ℤ) (List.replicate t 0 ++ tail) = some r ∧
        r.length = d.length ∧ r.drop t = tail ∧
        r.sum = (d.take t).sum + tail.sum := by
  intro t
  induction t using Nat.strong_induction_on with
  | _ t ih =>
    intro htN fuel hfuel tail htail
    rcases Nat.eq_zero_or_pos t with h0 | h1
    · subst h0
      refine ⟨List.replicate 0 0 ++ tail, ?_, by simpa using htail, by simp, by simp⟩
      cases fuel <;> simp [gpsLoop]
    · obtain ⟨f, rfl⟩ : ∃ f, fuel = f + 1 := ⟨fuel - 1, by omega⟩
      obtain ⟨hk1, hk2⟩ := hj t h1 htN
      set kz := j.getD t 0 with hkz
      set kn := kz.toNat with hkn
      have hkn1 : 1 ≤ kn := by omega
      have hknt : kn ≤ t := by omega
      set v : ℚ := ((d.drop (kn - 1)).take (t - (kn - 1))).sum with hv
      set tail2 : List ℚ := v :: (List.replicate (t - kn) 0 ++ tail) with htail2
      have hget : pyGet j (t : ℤ) = some kz := by
        unfold pyGet
        rw [if_pos (by exact_mod_cast Nat.zero_le t), Int.toNat_natCast]
        exact getElem?_eq_some_getD j t 0 (by omega)
      have hslice : pySlice d (kz - 1) (t : ℤ) = (d.drop (kn - 1)).take (t - (kn - 1)) := by
        simp only [pySlice]
        rw [if_neg (by omega), if_neg (by omega)]
        have ha : min (kz - 1) ((d.length : ℤ)) = kz - 1 := by omega
        have hb : min ((t : ℤ)) ((d.length : ℤ)) = (t : ℤ) := by omega
        rw [ha, hb]
        have h1' : (kz - 1).toNat = kn - 1 := by omega
        have h2' : ((t : ℤ) - (kz - 1)).toNat = t - (kn - 1) := by omega
        rw [h1', h2']
      have hsetstruct : (List.replicate t (0:ℚ) ++ tail).set (kn - 1) v =
          List.replicate (kn - 1) 0 ++ tail2 := by
        have hrep : List.replicate t (0:ℚ) =
            List.replicate (kn - 1) 0 ++ (0 :: List.replicate (t - kn) 0) := by
          rw [← List.replicate_succ, ← List.replicate_add]
          congr 1
          omega
        rw [hrep, List.append_assoc, List.set_append]
        rw [if_neg (by simp)]
        simp [tail2]
      have hpyset : pySet (List.replicate t (0:ℚ) ++ tail) (kz - 1) v =
          some (List.replicate (kn - 1) 0 ++ tail2) := by
        unfold pySet
        have hlen : (List.replicate t (0:ℚ) ++ tail).length = d.length := by
          simp; omega
        rw [if_pos (by omega), if_pos (by rw [hlen]; omega)]
        rw [show (kz - 1).toNat = kn - 1 from by omega, hsetstruct]
      have hcast : kz - 1 = ((kn - 1 : ℕ) : ℤ) := by omega
      have hstep : gpsLoop d j (f + 1) (t : ℤ) (List.replicate t 0 ++ tail) =
          gpsLoop d j f ((kn - 1 : ℕ) : ℤ) (List.replicate (kn - 1) 0 ++ tail2) := by
        simp only [gpsLoop]
        rw [if_pos (by exact_mod_cast h1)]
        rw [hget]
        simp only [hslice, ← hv, hpyset]
        rw [hcast]
      obtain ⟨r, hr, hrlen, hrdrop, hrsum⟩ :=
        ih (kn - 1) (by omega) (by omega) f (by omega) tail2
          (by simp [tail2]; omega)
      refine ⟨r, ?_, hrlen, ?_, ?_⟩
      · rw [hstep]; exact hr
      · have hdd : r.drop t = (r.drop (kn - 1)).drop (t - (kn - 1)) := by
          rw [List.drop_drop]; congr 1; omega
        rw [hdd, hrdrop, htail2]
        rw [show v :: (List.replicate (t - kn) (0:ℚ) ++ tail) =
            (v :: List.replicate (t - kn) 0) ++ tail from rfl]
        rw [show t - (kn - 1) = (v :: List.replicate (t - kn) (0:ℚ)).length from by simp; omega]
        exact List.drop_left _ _
      · rw [hrsum]
        have hsplit : (d.take (kn - 1)).sum + v = (d.take t).sum := by
          have hnum : (kn - 1) + (t - (kn - 1)) = t := by omega
          rw [hv, ← List.sum_append, ← List.take_add, hnum]
        have htail2sum : tail2.sum = v + tail.sum := by
          simp [tail2, List.sum_replicate]
        rw [htail2sum]
        linarith

lemma intervals_partition (N : ℕ) (j : ℕ → ℕ)
    (hj : ∀ u, 1 ≤ u → u ≤ N → 1 ≤ j u ∧ j u ≤ u) :
    ∀ fuel t, t ≤ fuel → t ≤ N →
      ((wwIntervals j fuel t).reverse.map fun p =>
        List.range' p.1 (p.2 + 1 - p.1)).flatten = List.range' 1 t := by
  intro fuel
  induction fuel with
  | zero =>
    intro t ht _
    interval_cases t
    rfl
  | succ fuel ih =>
    intro t ht htN
    rcases Nat.eq_zero_or_pos t with h0 | h1
    · subst h0
      simp [wwIntervals]
    · obtain ⟨hj1, hj2⟩ := hj t h1 htN
      rw [wwIntervals, if_neg (by omega)]
      rw [List.reverse_cons, List.map_append, List.flatten_append]
      rw [ih (j t - 1) (by omega) (by omega)]
      simp only [List.map_cons, List.map_nil, List.flatten_cons, List.flatten_nil,
        List.append_nil]
      have key := List.range'_append 1 (j t - 1) (t + 1 - j t) 1
      rw [show 1 + 1 * (j t - 1) = j t from by omega] at key
      rw [show (t + 1 - j t) + (j t - 1) = t from by omega] at key
      exact key

lemma gpsLoop_zero (d : List ℚ) (j : List ℤ) :
    ∀ fuel (sched : List ℚ), gpsLoop d j fuel 0 sched = some sched := by
  intro fuel sched
  cases fuel <;> simp [gpsLoop]

lemma gps_single (d : List ℚ) (jz : List ℤ) (m : ℕ) (hlen : d.length = m + 1)
    (hget : pyGet jz ((m + 1 : ℕ) : ℤ) = some 1) :
    gpsLoop d jz (m + 1) ((m + 1 : ℕ) : ℤ) (List.replicate (m + 1) 0) =
      some (d.sum :: List.replicate m 0) := by
  have hsl : pySlice d ((1 : ℤ) - 1) ((m + 1 : ℕ) : ℤ) = d := by
    simp only [pySlice]
    rw [if_neg (by omega), if_neg (by omega)]
    rw [show min ((1 : ℤ) - 1) ((d.length : ℕ) : ℤ) = 0 from by omega]
    rw [show min (((m + 1 : ℕ) : ℤ)) ((d.length : ℕ) : ℤ) = ((d.length : ℕ) : ℤ)
      from by omega]
    rw [show ((0 : ℤ)).toNat = 0 from rfl]
    rw [show (((d.length : ℕ) : ℤ) - 0).toNat = d.length from by omega]
    rw [List.drop_zero, List.take_length]
  have hset : pySet (List.replicate (m + 1) (0:ℚ)) ((1 : ℤ) - 1) d.sum =
      some (d.sum :: List.replicate m 0) := by
    unfold pySet
    rw [if_pos (by omega)]
    rw [if_pos (by simp)]
    rw [show (((1 : ℤ) - 1)).toNat = 0 from rfl]
    rw [List.replicate_succ, List.set_cons_zero]
  simp only [gpsLoop]
  rw [if_pos (by exact_mod_cast Nat.succ_pos m)]
  rw [hget]
  simp only [hsl, hset]
  rw [show (1 : ℤ) - 1 = 0 from rfl, gpsLoop_zero]

/-! ### The claims -/

/-- C1: for every demand sequence with finite non-negative entries, setup
cost `S ≥ 0` and holding rate `H ≥ 0`, and every `t` in `1..N`,
`compute_optimal_schedule` satisfies
`Z[t] = min over k in 1..t of (Z[k-1] + S + H * Σ_{i=k}^t (i-k)*demand[i])`,
`j[t]` attains that minimum (and lies in `1..t`), and the cost table
entry at `(k, t)` equals `cost(k, t)` for every `k ≤ t`. -/
theorem claim_C1_recurrence (d : List ℚ) (S H : ℚ) (t : ℕ)
    (hd : ∀ x ∈ d, 0 ≤ x) (hS : 0 ≤ S) (hH : 0 ≤ H)
    (h1 : 1 ≤ t) (h2 : t ≤ d.length) :
    Zv d S H t = (Finset.Icc 1 t).inf' (Finset.nonempty_Icc.mpr h1)
        (fun k => cost (Zarr d S H) S H d k t) ∧
      cost (Zarr d S H) S H d (jv d S H t) t = Zv d S H t ∧
      1 ≤ jv d S H t ∧ jv d S H t ≤ t ∧
      (∀ k, 1 ≤ k → k ≤ t →
        tableEntry d S H k t = some (cost (Zarr d S H) S H d k t)) := by
  obtain ⟨hat, hj1, hjt⟩ := Zv_attain d S H t h1 h2
  refine ⟨?_, hat.symm, hj1, hjt, fun k hk1 hk2 => table_filled d S H k t hk1 hk2 h2⟩
  apply le_antisymm
  · refine Finset.le_inf' _ _ ?_
    intro k hk
    have hm := Finset.mem_Icc.mp hk
    exact Zv_le_cost d S H t k hm.1 hm.2 h2
  · have hmem : jv d S H t ∈ Finset.Icc 1 t := Finset.mem_Icc.mpr ⟨hj1, hjt⟩
    calc (Finset.Icc 1 t).inf' (Finset.nonempty_Icc.mpr h1)
          (fun k => cost (Zarr d S H) S H d k t) ≤
        cost (Zarr d S H) S H d (jv d S H t) t := Finset.inf'_le _ hmem
      _ = Zv d S H t := hat.symm

theorem claim_C1_recurrence_witness :
    (∀ x ∈ ([10, 10, 10] : List ℚ), 0 ≤ x) ∧ (0:ℚ) ≤ 50 ∧ (0:ℚ) ≤ 1 ∧
      1 ≤ 2 ∧ 2 ≤ ([10, 10, 10] : List ℚ).length ∧
      (Zv [10, 10, 10] 50 1 2 = (Finset.Icc 1 2).inf'
          (Finset.nonempty_Icc.mpr (by norm_num))
          (fun k => cost (Zarr [10, 10, 10] 50 1) 50 1 [10, 10, 10] k 2) ∧
        cost (Zarr [10, 10, 10] 50 1) 50 1 [10, 10, 10]
            (jv [10, 10, 10] 50 1 2) 2 = Zv [10, 10, 10] 50 1 2 ∧
        1 ≤ jv [10, 10, 10] 50 1 2 ∧ jv [10, 10, 10] 50 1 2 ≤ 2 ∧
        (∀ k, 1 ≤ k → k ≤ 2 → tableEntry [10, 10, 10] 50 1 k 2 =
          some (cost (Zarr [10, 10, 10] 50 1) 50 1 [10, 10, 10] k 2))) :=
  ⟨by intro x hx; simp at hx; subst hx; norm_num, by norm_num, by norm_num,
    by norm_num, by norm_num,
    claim_C1_recurrence [10, 10, 10] 50 1 2
      (by intro x hx; simp at hx; subst hx; norm_num) (by norm_num) (by norm_num)
      (by norm_num) (by norm_num)⟩

/-- C4: when several start periods `k` in `1..t` reach the minimal
`cost(k, t)`, `compute_optimal_schedule` keeps the smallest such `k` in
`j[t]` (strict `<` comparison scanning `k` upward): `j[t]` attains the
minimum and is `≤` every `k` attaining it. -/
theorem claim_C4_tie_break (d : List ℚ) (S H : ℚ) (t k : ℕ)
    (hd : ∀ x ∈ d, 0 ≤ x) (hS : 0 ≤ S) (hH : 0 ≤ H)
    (ht1 : 1 ≤ t) (ht : t ≤ d.length) (hk1 : 1 ≤ k) (hkt : k ≤ t)
    (hc : cost (Zarr d S H) S H d k t = Zv d S H t) :
    cost (Zarr d S H) S H d (jv d S H t) t = Zv d S H t ∧ jv d S H t ≤ k :=
  ⟨(Zv_attain d S H t ht1 ht).1.symm, jv_first d S H t k ht1 ht hk1 hkt hc⟩

theorem claim_C4_tie_break_witness :
    (∀ x ∈ ([0, 0] : List ℚ), 0 ≤ x) ∧ (0:ℚ) ≤ 0 ∧ (0:ℚ) ≤ 1 ∧
      1 ≤ 2 ∧ 2 ≤ ([0, 0] : List ℚ).length ∧ 1 ≤ 2 ∧ 2 ≤ 2 ∧
      cost (Zarr [0, 0] 0 1) 0 1 [0, 0] 2 2 = Zv [0, 0] 0 1 2 ∧
      (cost (Zarr [0, 0] 0 1) 0 1 [0, 0] (jv [0, 0] 0 1 2) 2 = Zv [0, 0] 0 1 2 ∧
        jv [0, 0] 0 1 2 ≤ 2) := by
  have hd : ∀ x ∈ ([0, 0] : List ℚ), 0 ≤ x := by
    intro x hx; simp at hx; subst hx; norm_num
  have hc : cost (Zarr [0, 0] 0 1) 0 1 [0, 0] 2 2 = Zv [0, 0] 0 1 2 := by
    norm_num [cost, Zarr, Zv, holding_units, compute_optimal_schedule, wwLoop,
      innerStep, minSel, List.range']
  exact ⟨hd, by norm_num, by norm_num, by norm_num, by norm_num, by norm_num,
    by norm_num, hc,
    claim_C4_tie_break [0, 0] 0 1 2 2 hd (by norm_num) (by norm_num)
      (by norm_num) (by norm_num) (by norm_num) (by norm_num) hc⟩

/-- C6: with non-negative demand, setup cost and holding rate, the array
`Z` computed by `compute_optimal_schedule` is non-decreasing:
`Z[t] ≤ Z[t+1]` for every `t` in `0..N-1`. -/
theorem claim_C6_monotone (d : List ℚ) (S H : ℚ) (t : ℕ)
    (hd : ∀ x ∈ d, 0 ≤ x) (hS : 0 ≤ S) (hH : 0 ≤ H) (ht : t < d.length) :
    Zv d S H t ≤ Zv d S H (t + 1) :=
  Zv_mono_step d S H hd hS hH t ht

theorem claim_C6_monotone_witness :
    (∀ x ∈ ([10, 10, 10] : List ℚ), 0 ≤ x) ∧ (0:ℚ) ≤ 50 ∧ (0:ℚ) ≤ 1 ∧
      1 < ([10, 10, 10] : List ℚ).length ∧
      Zv [10, 10, 10] 50 1 1 ≤ Zv [10, 10, 10] 50 1 2 :=
  ⟨by intro x hx; simp at hx; subst hx; norm_num, by norm_num, by norm_num,
    by norm_num,
    claim_C6_monotone [10, 10, 10] 50 1 1
      (by intro x hx; simp at hx; subst hx; norm_num) (by norm_num) (by norm_num)
      (by norm_num)⟩

/-- C9: after `compute_optimal_schedule` on non-negative inputs, the
predecessor array satisfies `1 ≤ j[t] ≤ t` for every `t` in `1..N`. -/
theorem claim_C9_j_bounds (d : List ℚ) (S H : ℚ) (t : ℕ)
    (hd : ∀ x ∈ d, 0 ≤ x) (hS : 0 ≤ S) (hH : 0 ≤ H)
    (h1 : 1 ≤ t) (h2 : t ≤ d.length) :
    1 ≤ jv d S H t ∧ jv d S H t ≤ t :=
  (Zv_attain d S H t h1 h2).2

theorem claim_C9_j_bounds_witness :
    (∀ x ∈ ([10, 10, 10] : List ℚ), 0 ≤ x) ∧ (0:ℚ) ≤ 50 ∧ (0:ℚ) ≤ 1 ∧
      1 ≤ 3 ∧ 3 ≤ ([10, 10, 10] : List ℚ).length ∧
      (1 ≤ jv [10, 10, 10] 50 1 3 ∧ jv [10, 10, 10] 50 1 3 ≤ 3) :=
  ⟨by intro x hx; simp at hx; subst hx; norm_num, by norm_num, by norm_num,
    by norm_num, by norm_num,
    claim_C9_j_bounds [10, 10, 10] 50 1 3
      (by intro x hx; simp at hx; subst hx; norm_num) (by norm_num) (by norm_num)
      (by norm_num) (by norm_num)⟩

/-- C10: for every predecessor array satisfying `1 ≤ j[t] ≤ t` on
`1..N`, the backward walk of `get_production_schedule` terminates within
`N` loop iterations (the fuel `N` built into the embedding suffices, each
step replacing `t` by `j[t] - 1 < t`). -/
theorem claim_C10_termination (d : List ℚ) (j : List ℤ)
    (hjlen : j.length = d.length + 1)
    (hj : ∀ t, 1 ≤ t → t ≤ d.length → 1 ≤ j.getD t 0 ∧ j.getD t 0 ≤ (t : ℤ)) :
    (get_production_schedule d j).isSome := by
  obtain ⟨r, hr, -, -, -⟩ :=
    gps_run d j hjlen hj d.length (le_refl _) d.length (le_refl _) [] (by simp)
  rw [List.append_nil] at hr
  unfold get_production_schedule
  rw [hr]
  rfl

theorem claim_C10_termination_witness :
    ([0, 1, 1] : List ℤ).length = ([4, 7] : List ℚ).length + 1 ∧
      (∀ t, 1 ≤ t → t ≤ ([4, 7] : List ℚ).length →
        1 ≤ ([0, 1, 1] : List ℤ).getD t 0 ∧ ([0, 1, 1] : List ℤ).getD t 0 ≤ (t : ℤ)) ∧
      (get_production_schedule [4, 7] [0, 1, 1]).isSome := by
  have hb : ∀ t, 1 ≤ t → t ≤ ([4, 7] : List ℚ).length →
      1 ≤ ([0, 1, 1] : List ℤ).getD t 0 ∧ ([0, 1, 1] : List ℤ).getD t 0 ≤ (t : ℤ) := by
    intro t h1 h2
    simp only [List.length_cons, List.length_nil] at h2
    interval_cases t <;> constructor <;> decide
  exact ⟨by decide, hb, claim_C10_termination [4, 7] [0, 1, 1] (by decide) hb⟩

/-- C2: for every valid input, the reconstructed schedule exists, its
quantities sum exactly to the total demand, it has one quantity per
period, and the intervals `[j[t], t]` obtained by walking `j` backward
from `N` partition `{1..N}` with no gaps or overlaps. -/
theorem claim_C2_conservation (d : List ℚ) (S H : ℚ)
    (hd : ∀ x ∈ d, 0 ≤ x) (hS : 0 ≤ S) (hH : 0 ≤ H) (hN : 1 ≤ d.length) :
    ∃ sched, (solve d S H).2.2 = some sched ∧ sched.sum = d.sum ∧
      sched.length = d.length ∧
      ((wwIntervals (jv d S H) d.length d.length).reverse.map fun p =>
        List.range' p.1 (p.2 + 1 - p.1)).flatten = List.range' 1 d.length := by
  have hjb : ∀ u, 1 ≤ u → u ≤ d.length → 1 ≤ jv d S H u ∧ jv d S H u ≤ u :=
    fun u h1 h2 => (Zv_attain d S H u h1 h2).2
  have hjlen : ((jarr d S H).map Int.ofNat).length = d.length + 1 := by
    rw [List.length_map, jarr_length]
  have hjt : ∀ u, 1 ≤ u → u ≤ d.length →
      1 ≤ ((jarr d S H).map Int.ofNat).getD u 0 ∧
        ((jarr d S H).map Int.ofNat).getD u 0 ≤ (u : ℤ) := by
    intro u h1 h2
    rw [getD_map_int]
    obtain ⟨ha, hb⟩ := hjb u h1 h2
    exact ⟨by exact_mod_cast ha, by exact_mod_cast hb⟩
  obtain ⟨r, hr, hrlen, hrdrop, hrsum⟩ :=
    gps_run d ((jarr d S H).map Int.ofNat) hjlen hjt d.length (le_refl _)
      d.length (le_refl _) [] (by simp)
  rw [List.append_nil] at hr
  refine ⟨r, hr, ?_, hrlen, ?_⟩
  · rw [hrsum, List.take_length]
    simp
  · exact intervals_partition d.length (jv d S H) hjb d.length d.length
      (le_refl _) (le_refl _)

theorem claim_C2_conservation_witness :
    (∀ x ∈ ([10, 10, 10] : List ℚ), 0 ≤ x) ∧ (0:ℚ) ≤ 50 ∧ (0:ℚ) ≤ 1 ∧
      1 ≤ ([10, 10, 10] : List ℚ).length ∧
      ∃ sched, (solve [10, 10, 10] 50 1).2.2 = some sched ∧
        sched.sum = ([10, 10, 10] : List ℚ).sum ∧
        sched.length = ([10, 10, 10] : List ℚ).length ∧
        ((wwIntervals (jv [10, 10, 10] 50 1) ([10, 10, 10] : List ℚ).length
            ([10, 10, 10] : List ℚ).length).reverse.map fun p =>
          List.range' p.1 (p.2 + 1 - p.1)).flatten =
          List.range' 1 ([10, 10, 10] : List ℚ).length :=
  ⟨by intro x hx; simp at hx; subst hx; norm_num, by norm_num, by norm_num,
    by norm_num,
    claim_C2_conservation [10, 10, 10] 50 1
      (by intro x hx; simp at hx; subst hx; norm_num) (by norm_num) (by norm_num)
      (by norm_num)⟩

/-- C5: with a zero holding rate, the computed policy is a single order
at period 1 covering the whole demand: `j[t] = 1` for every `t` in
`1..N`, the schedule places the total demand at period 1 and `0`
everywhere else, and `Z[N] = S`. -/
theorem claim_C5_zero_holding (d : List ℚ) (S : ℚ)
    (hd : ∀ x ∈ d, 0 ≤ x) (hS : 0 ≤ S) (hN : 1 ≤ d.length) :
    (∀ t, 1 ≤ t → t ≤ d.length → jv d S 0 t = 1) ∧
      (solve d S 0).2.2 = some (d.sum :: List.replicate (d.length - 1) 0) ∧
      Zv d S 0 d.length = S := by
  have hZj := zero_holding_rate d S hd hS
  refine ⟨fun t h1 h2 => (hZj t h1 h2).2, ?_, (hZj d.length hN (le_refl _)).1⟩
  obtain ⟨m, hm⟩ : ∃ m, d.length = m + 1 := ⟨d.length - 1, by omega⟩
  have hget : pyGet ((jarr d S 0).map Int.ofNat) ((m + 1 : ℕ) : ℤ) = some 1 := by
    unfold pyGet
    rw [if_pos (by exact_mod_cast Nat.zero_le (m + 1)), Int.toNat_natCast]
    rw [getElem?_eq_some_getD ((jarr d S 0).map Int.ofNat) (m + 1) 0
      (by rw [List.length_map, jarr_length]; omega)]
    rw [getD_map_int]
    rw [show (jarr d S 0).getD (m + 1) 0 = 1 from (hZj (m + 1) (by omega) (by omega)).2]
    rfl
  show get_production_schedule d ((jarr d S 0).map Int.ofNat) = _
  unfold get_production_schedule
  rw [hm]
  rw [gps_single d ((jarr d S 0).map Int.ofNat) m hm hget]
  rw [show m + 1 - 1 = m from by omega]

theorem claim_C5_zero_holding_witness :
    (∀ x ∈ ([4, 7] : List ℚ), 0 ≤ x) ∧ (0:ℚ) ≤ 5 ∧
      1 ≤ ([4, 7] : List ℚ).length ∧
      ((∀ t, 1 ≤ t → t ≤ ([4, 7] : List ℚ).length → jv [4, 7] 5 0 t = 1) ∧
        (solve [4, 7] 5 0).2.2 =
          some (([4, 7] : List ℚ).sum ::
            List.replicate (([4, 7] : List ℚ).length - 1) 0) ∧
        Zv [4, 7] 5 0 ([4, 7] : List ℚ).length = 5) := by
  have hd : ∀ x ∈ ([4, 7] : List ℚ), 0 ≤ x := by
    intro x hx
    simp at hx
    rcases hx with rfl | rfl <;> norm_num
  exact ⟨hd, by norm_num, by norm_num,
    claim_C5_zero_holding [4, 7] 5 hd (by norm_num) (by norm_num)⟩

/-- C3 counterexample: for demand `[10, 10, 10]`, `S = 50`, `H = 1`, the
computed `Z` array is `[0, 50, 60, 80]`, not the `[0, 50, 70, 100]` the
claim states (the claim is also internally inconsistent with its own
`Z[3] = 80`). -/
theorem claim_C3_counterexample :
    Zarr [10, 10, 10] 50 1 = [0, 50, 60, 80] ∧
      Zarr [10, 10, 10] 50 1 ≠ [0, 50, 70, 100] := by
  constructor <;>
    norm_num [Zarr, compute_optimal_schedule, wwLoop, innerStep, cost,
      holding_units, minSel, List.range']

/-- C3 amended: for demand `[10, 10, 10]`, `S = 50`, `H = 1`,
`compute_optimal_schedule` produces `Z = [0, 50, 60, 80]` and
`j = [0, 1, 1, 1]`, selects the single order of 30 units at period 1
(schedule `[30, 0, 0]`), and reports total cost `Z[3] = 80`. -/
theorem claim_C3_amended :
    Zarr [10, 10, 10] 50 1 = [0, 50, 60, 80] ∧
      jarr [10, 10, 10] 50 1 = [0, 1, 1, 1] ∧
      (solve [10, 10, 10] 50 1).2.2 = some [30, 0, 0] ∧
      Zv [10, 10, 10] 50 1 3 = 80 := by
  have hj : jarr [10, 10, 10] 50 1 = [0, 1, 1, 1] := by
    norm_num [jarr, compute_optimal_schedule, wwLoop, innerStep, cost,
      holding_units, minSel, List.range']
  refine ⟨?_, hj, ?_, ?_⟩
  · norm_num [Zarr, compute_optimal_schedule, wwLoop, innerStep, cost,
      holding_units, minSel, List.range']
  · show get_production_schedule [10, 10, 10]
        ((jarr [10, 10, 10] 50 1).map Int.ofNat) = some [30, 0, 0]
    rw [hj]
    rw [show List.map Int.ofNat [0, 1, 1, 1] = ([0, 1, 1, 1] : List ℤ) from rfl]
    show gpsLoop [10, 10, 10] [0, 1, 1, 1] (2 + 1) ((2 + 1 : ℕ) : ℤ)
        (List.replicate (2 + 1) 0) = some [30, 0, 0]
    rw [gps_single [10, 10, 10] [0, 1, 1, 1] 2 rfl (by decide)]
    norm_num [List.replicate]
  · norm_num [Zv, Zarr, compute_optimal_schedule, wwLoop, innerStep, cost,
      holding_units, minSel, List.range']

/-- C7 counterexample: the solver performs no input validation: on the
invalid horizon `N = 0` (empty demand) it does not fail but completes,
producing `Z = [0]`, `j = [0]` and an empty schedule. -/
theorem claim_C7_counterexample :
    ([] : List ℚ).length ≤ 0 ∧
      solve ([] : List ℚ) 50 1 = ([0], [0], some []) := by
  constructor
  · norm_num
  · norm_num [solve, compute_optimal_schedule, wwLoop, get_production_schedule,
      gpsLoop]

/-- C7 amended: no `InvalidInput` check exists: for every setup cost and
holding rate the empty horizon is processed without error (yielding
`Z = [0]`, `j = [0]`, empty schedule), and a negative demand value is
likewise accepted (demand `[-1]` yields `Z = [0, S]`, `j = [0, 1]` and
schedule `[-1]`). -/
theorem claim_C7_amended (S H : ℚ) :
    solve ([] : List ℚ) S H = ([0], [0], some []) ∧
      solve [(-1 : ℚ)] S H = ([0, S], [0, 1], some [-1]) := by
  constructor
  · norm_num [solve, compute_optimal_schedule, wwLoop, get_production_schedule,
      gpsLoop]
  · norm_num [solve, compute_optimal_schedule, wwLoop, innerStep, cost,
      holding_units, minSel, get_production_schedule, gpsLoop, pyGet, pySet,
      pySlice, List.range']

/-- C8 counterexample: `get_production_schedule` has no defensive check:
with the corrupt predecessor array `j = [0, 0]` (violating `1 ≤ j[1]`)
and demand `[5]` it does not fail but returns the schedule `[5]`
(Python's negative indexing makes `schedule[-1]` and `demand[-1:1]`
well-defined). -/
theorem claim_C8_counterexample :
    ¬ (1 ≤ ([0, 0] : List ℤ).getD 1 0) ∧
      get_production_schedule [5] [0, 0] = some [5] := by
  constructor
  · decide
  · norm_num [get_production_schedule, gpsLoop, pyGet, pySet, pySlice]

/-- C8 amended: no `CorruptState` failure exists: a predecessor array
violating `1 ≤ j[t] ≤ t` can still produce a schedule through Python
index semantics; for any demand value `q`, `j = [0, 0]` yields the
schedule `[q]`. -/
theorem claim_C8_amended (q : ℚ) :
    get_production_schedule [q] [0, 0] = some [q] := by
  norm_num [get_production_schedule, gpsLoop, pyGet, pySet, pySlice]

end WagnerWhitin
